import Mathlib

/-!
Formal model of the DiskArchiver program (src/main.rs).

Strings are modelled as `List Char`.  The nom combinators used by the source
(`char`, `take_until`, `multispace0`, `many0`, `tag`) are translated directly;
a parser takes the input and returns `Option (rest, value)` in the nom
convention (remaining input first).  Shared mutable state (the per-drive
`AtomicBool` and `Mutex<DriveStatus>`) is modelled as plain fields, and the
external commands (`lsscsi`, `blkid`, `isoinfo`, `eject`) are modelled by
their textual output / exit-status schedules, which are parameters of the
corresponding functions.
-/

/-- `DriveStatus` from src/main.rs (lines 48-60). -/
inductive DriveStatus where
  | Setup
  | NoDisk
  | Copying
  | WaitingForName
  | ConfirmingName
  | Saving (name : List Char)
  | Done
  | CopyWriteError
  | CopyReadError
  deriving DecidableEq

/-- `DiskDrive` from src/main.rs (lines 62-66): the `AtomicBool` and the
`Mutex` are modelled by the plain values they guard. -/
structure DiskDrive where
  file : List Char
  has_disk : Bool
  status_message : DriveStatus
  deriving DecidableEq

/-- `ISOInfo` from src/main.rs (lines 68-73); `length` is in bytes. -/
structure ISOInfo where
  name : List Char
  block_size : Nat
  length : Nat
  deriving DecidableEq

/-- `CopyError` from src/main.rs (lines 75-78). -/
inductive CopyError where
  | Read
  | Write
  deriving DecidableEq

/- ### nom combinators, modelled on `List Char` -/

/-- nom `character::complete::char(c)`: consumes exactly the character `c`. -/
def charTag (c : Char) : List Char → Option (List Char × Char)
  | [] => none
  | x :: xs => if x = c then some (xs, c) else none

/-- nom `bytes::complete::take_until(c)` for a one-character pattern:
consumes everything strictly before the first occurrence of `c`, failing
when `c` does not occur. -/
def takeUntil (c : Char) : List Char → Option (List Char × List Char)
  | [] => none
  | x :: xs =>
    if x = c then some (x :: xs, [])
    else
      match takeUntil c xs with
      | none => none
      | some (rest, taken) => some (rest, x :: taken)

/-- The character class accepted by nom `multispace0`. -/
def isMultispace (c : Char) : Bool := c = ' ' || c = '\t' || c = '\r' || c = '\n'

/-- nom `character::complete::multispace0`: consumes zero or more
space/tab/carriage-return/newline characters, never failing. -/
def multispace0 (input : List Char) : List Char × List Char :=
  (input.dropWhile isMultispace, input.takeWhile isMultispace)

/- ### Actuator: `eject_drive_disk` / `close_drive_disk` (src/main.rs 248-297)

The external `eject` command is modelled by a schedule `plan : Nat → Option Bool`
giving, for the i-th issued command, `none` when the command fails to launch
and `some b` when it runs and exits with success-status `b`. -/

/-- The `for _ in 0..5` retry loop shared by `eject_drive_disk` and
`close_drive_disk`: `i` counts commands already issued, the second argument is
the number of loop iterations left.  Returns the `Result<bool, DiskInfoError>`
(`Except Unit Bool`, where `.error ()` stands for `DiskInfoError::LaunchFail`)
together with the total number of commands issued. -/
def attemptRun (plan : Nat → Option Bool) (i : Nat) : Nat → Except Unit Bool × Nat
  | 0 => (Except.ok false, i)
  | k + 1 =>
    match plan i with
    | none => (Except.error (), i + 1)
    | some true => (Except.ok true, i + 1)
    | some false => attemptRun plan (i + 1) k

/-- `eject_drive_disk` (src/main.rs 248-271): up to 5 attempts of the external
`eject <drive>` command, stopping at the first success. -/
def eject_drive_disk (plan : Nat → Option Bool) : Except Unit Bool × Nat :=
  attemptRun plan 0 5

/-- `close_drive_disk` (src/main.rs 273-297): up to 5 attempts of the external
`eject -t <drive>` command, stopping at the first success. -/
def close_drive_disk (plan : Nat → Option Bool) : Except Unit Bool × Nat :=
  attemptRun plan 0 5

lemma attemptRun_issued_le (plan : Nat → Option Bool) :
    ∀ (k i : Nat), (attemptRun plan i k).2 ≤ i + k := by
  intro k
  induction k with
  | zero => intro i; simp [attemptRun]
  | succ k ih =>
    intro i
    unfold attemptRun
    cases h : plan i with
    | none =>
      show i + 1 ≤ i + (k + 1)
      omega
    | some b =>
      cases b with
      | true =>
        show i + 1 ≤ i + (k + 1)
        omega
      | false =>
        show (attemptRun plan (i + 1) k).2 ≤ i + (k + 1)
        have := ih (i + 1)
        omega

lemma attemptRun_all_false (plan : Nat → Option Bool) :
    ∀ (k i : Nat), (∀ j, j < k → plan (i + j) = some false) →
      attemptRun plan i k = (Except.ok false, i + k) := by
  intro k
  induction k with
  | zero => intro i _; simp [attemptRun]
  | succ k ih =>
    intro i h
    have h0 : plan i = some false := by
      have := h 0 (Nat.succ_pos k)
      simpa using this
    unfold attemptRun
    rw [h0]
    have := ih (i + 1) (fun j hj => by
      have := h (j + 1) (by omega)
      simpa [Nat.add_assoc, Nat.add_comm, Nat.add_left_comm] using this)
    rw [this, show i + 1 + k = i + (k + 1) from by omega]

lemma attemptRun_first_true (plan : Nat → Option Bool) :
    ∀ (k m i : Nat), m < k → (∀ j, j < m → plan (i + j) = some false) →
      plan (i + m) = some true →
      attemptRun plan i k = (Except.ok true, i + m + 1) := by
  intro k
  induction k with
  | zero => intro m i hm; omega
  | succ k ih =>
    intro m i hm hfalse htrue
    cases m with
    | zero =>
      have h0 : plan i = some true := by simpa using htrue
      unfold attemptRun
      rw [h0]
    | succ m =>
      have h0 : plan i = some false := by
        have := hfalse 0 (Nat.succ_pos m)
        simpa using this
      unfold attemptRun
      rw [h0]
      have := ih m (i + 1) (by omega)
        (fun j hj => by
          have := hfalse (j + 1) (by omega)
          simpa [Nat.add_assoc, Nat.add_comm, Nat.add_left_comm] using this)
        (by
          have heq : i + 1 + m = i + (m + 1) := by omega
          rw [heq]; exact htrue)
      rw [this, show i + 1 + m + 1 = i + (m + 1) + 1 from by omega]

lemma attemptRun_first_none (plan : Nat → Option Bool) :
    ∀ (k m i : Nat), m < k → (∀ j, j < m → plan (i + j) = some false) →
      plan (i + m) = none →
      attemptRun plan i k = (Except.error (), i + m + 1) := by
  intro k
  induction k with
  | zero => intro m i hm; omega
  | succ k ih =>
    intro m i hm hfalse hnone
    cases m with
    | zero =>
      have h0 : plan i = none := by simpa using hnone
      unfold attemptRun
      rw [h0]
    | succ m =>
      have h0 : plan i = some false := by
        have := hfalse 0 (Nat.succ_pos m)
        simpa using this
      unfold attemptRun
      rw [h0]
      have := ih m (i + 1) (by omega)
        (fun j hj => by
          have := hfalse (j + 1) (by omega)
          simpa [Nat.add_assoc, Nat.add_comm, Nat.add_left_comm] using this)
        (by
          have heq : i + 1 + m = i + (m + 1) := by omega
          rw [heq]; exact hnone)
      rw [this, show i + 1 + m + 1 = i + (m + 1) + 1 from by omega]

/-- C9: `eject_drive_disk` and `close_drive_disk` each issue their external
command at most 5 times, stop at the first attempt that reports success
(returning `Ok(true)` after `k+1` issues when attempt `k` is the first
success), return `Ok(false)` after exactly 5 issues when all attempts report
non-success, and abort immediately with a launch error (`Err`, not retried)
at the first attempt that fails to launch. -/
theorem actuator_retry_budget :
    (∀ plan, (eject_drive_disk plan).2 ≤ 5 ∧ (close_drive_disk plan).2 ≤ 5) ∧
    (∀ plan, (∀ j, j < 5 → plan j = some false) →
      eject_drive_disk plan = (Except.ok false, 5) ∧
      close_drive_disk plan = (Except.ok false, 5)) ∧
    (∀ plan m, m < 5 → (∀ j, j < m → plan j = some false) → plan m = some true →
      eject_drive_disk plan = (Except.ok true, m + 1) ∧
      close_drive_disk plan = (Except.ok true, m + 1)) ∧
    (∀ plan m, m < 5 → (∀ j, j < m → plan j = some false) → plan m = none →
      eject_drive_disk plan = (Except.error (), m + 1) ∧
      close_drive_disk plan = (Except.error (), m + 1)) := by
  refine ⟨?_, ?_, ?_, ?_⟩
  · intro plan
    refine ⟨?_, ?_⟩
    · simpa [eject_drive_disk] using attemptRun_issued_le plan 5 0
    · simpa [close_drive_disk] using attemptRun_issued_le plan 5 0
  · intro plan h
    have := attemptRun_all_false plan 5 0 (fun j hj => by simpa using h j hj)
    exact ⟨by simpa [eject_drive_disk] using this, by simpa [close_drive_disk] using this⟩
  · intro plan m hm hfalse htrue
    have := attemptRun_first_true plan 5 m 0 hm
      (fun j hj => by simpa using hfalse j hj) (by simpa using htrue)
    exact ⟨by simpa [eject_drive_disk] using this, by simpa [close_drive_disk] using this⟩
  · intro plan m hm hfalse hnone
    have := attemptRun_first_none plan 5 m 0 hm
      (fun j hj => by simpa using hfalse j hj) (by simpa using hnone)
    exact ⟨by simpa [eject_drive_disk] using this, by simpa [close_drive_disk] using this⟩

/-- Witness for C9 at concrete schedules: all-fail, first success at attempt 2,
and a launch failure at attempt 1. -/
theorem actuator_retry_budget_witness :
    eject_drive_disk (fun _ => some false) = (Except.ok false, 5) ∧
    close_drive_disk (fun i => if i = 2 then some true else some false) =
      (Except.ok true, 3) ∧
    eject_drive_disk (fun i => if i = 1 then none else some false) =
      (Except.error (), 2) := by
  refine ⟨?_, ?_, ?_⟩
  · exact (actuator_retry_budget.2.1 (fun _ => some false) (fun j _ => rfl)).1
  · exact (actuator_retry_budget.2.2.1 (fun i => if i = 2 then some true else some false)
      2 (by omega) (fun j hj => by interval_cases j <;> rfl) (by rfl)).2
  · exact (actuator_retry_budget.2.2.2 (fun i => if i = 1 then none else some false)
      1 (by omega) (fun j hj => by interval_cases j <;> rfl) (by rfl)).1

/- ### Operator naming exchange: `add_name_settings` (src/main.rs 446-511)

The cursive widget state that the callback reads (the "Settings ready"
checkbox, the file-name edit box, and the confirm-overwrite dialog layer) is
modelled explicitly; `Path::new(path).exists()` is an input of the refresh
event. -/

/-- UI-side state handled by `add_name_settings`: the drive's status cell,
the "Settings ready" checkbox, and the confirm-overwrite dialog (carrying the
path captured when it was opened), `none` when no dialog is on the layer
stack. -/
structure NameUI where
  status : DriveStatus
  checked : Bool
  dialog : Option (List Char)
  deriving DecidableEq

/-- Events that can touch the state of `add_name_settings`: an
`Event::Refresh` callback run (with the edit box's current `path` and the
result of `Path::new(path).exists()`), and the two dialog buttons. -/
inductive NameEvent where
  | refresh (path : List Char) (pathExists : Bool)
  | clickNo
  | clickYes
  deriving DecidableEq

/-- One step of `add_name_settings` (src/main.rs 456-510): the refresh
callback acts only in `WaitingForName` with the checkbox checked, moving to
`Saving(path)` when the target path does not exist and opening the dialog and
moving to `ConfirmingName` when it does; the dialog's "No" button unchecks
the box and returns to `WaitingForName`, its "Yes" button moves to
`Saving(path)` with the captured path. -/
def nameStep : NameEvent → NameUI → NameUI
  | .refresh path pathExists, s =>
    match s.status with
    | .WaitingForName =>
      if s.checked then
        if pathExists then
          { s with status := .ConfirmingName, dialog := some path }
        else
          { s with status := .Saving path }
      else s
    | _ => s
  | .clickNo, s =>
    match s.dialog with
    | some _ => { s with dialog := none, checked := false, status := .WaitingForName }
    | none => s
  | .clickYes, s =>
    match s.dialog with
    | some path => { s with dialog := none, status := .Saving path }
    | none => s

/-- C4: from `WaitingForName` with the operator's confirmation (checkbox)
given, a refresh moves straight to `Saving(path)` when the target path does
not exist and to `ConfirmingName` (dialog opened) when it does; from an open
dialog, "No" returns to `WaitingForName` (unchecking the box) and "Yes"
moves to `Saving` with the captured path; and from `ConfirmingName` the only
event that can produce a `Saving` status is the explicit "Yes"
(accept-overwrite) click — refreshes and "No" clicks never do. -/
theorem name_settings_transitions :
    (∀ (s : NameUI) (path : List Char), s.status = .WaitingForName → s.checked = true →
      nameStep (.refresh path false) s = { s with status := .Saving path }) ∧
    (∀ (s : NameUI) (path : List Char), s.status = .WaitingForName → s.checked = true →
      nameStep (.refresh path true) s =
        { s with status := .ConfirmingName, dialog := some path }) ∧
    (∀ (s : NameUI) (path : List Char), s.dialog = some path →
      nameStep .clickNo s =
        { s with dialog := none, checked := false, status := .WaitingForName }) ∧
    (∀ (s : NameUI) (path : List Char), s.dialog = some path →
      nameStep .clickYes s = { s with dialog := none, status := .Saving path }) ∧
    (∀ (s : NameUI) (e : NameEvent) (n : List Char), s.status = .ConfirmingName →
      (nameStep e s).status = .Saving n → e = .clickYes) := by
  refine ⟨?_, ?_, ?_, ?_, ?_⟩
  · intro s path hs hc
    simp [nameStep, hs, hc]
  · intro s path hs hc
    simp [nameStep, hs, hc]
  · intro s path hd
    simp [nameStep, hd]
  · intro s path hd
    simp [nameStep, hd]
  · intro s e n hs hsave
    cases e with
    | refresh path pathExists =>
      exfalso
      rw [nameStep, hs] at hsave
      simp at hsave
      rw [hs] at hsave
      exact absurd hsave (by simp)
    | clickNo =>
      exfalso
      rw [nameStep] at hsave
      cases hd : s.dialog with
      | none =>
        rw [hd] at hsave
        simp at hsave
        rw [hs] at hsave
        exact absurd hsave (by simp)
      | some p =>
        rw [hd] at hsave
        simp at hsave
    | clickYes => rfl

/-- Witness for C4 at concrete states. -/
theorem name_settings_transitions_witness :
    nameStep (.refresh ['a'] false) ⟨.WaitingForName, true, none⟩ =
      ⟨.Saving ['a'], true, none⟩ ∧
    nameStep (.refresh ['a'] true) ⟨.WaitingForName, true, none⟩ =
      ⟨.ConfirmingName, true, some ['a']⟩ ∧
    nameStep .clickNo ⟨.ConfirmingName, true, some ['a']⟩ =
      ⟨.WaitingForName, false, none⟩ ∧
    nameStep .clickYes ⟨.ConfirmingName, true, some ['a']⟩ =
      ⟨.Saving ['a'], true, none⟩ ∧
    NameEvent.clickYes = NameEvent.clickYes := by
  refine ⟨?_, ?_, ?_, ?_, ?_⟩
  · exact name_settings_transitions.1 ⟨.WaitingForName, true, none⟩ ['a'] rfl rfl
  · exact name_settings_transitions.2.1 ⟨.WaitingForName, true, none⟩ ['a'] rfl rfl
  · exact name_settings_transitions.2.2.1 ⟨.ConfirmingName, true, some ['a']⟩ ['a'] rfl
  · exact name_settings_transitions.2.2.2.1 ⟨.ConfirmingName, true, some ['a']⟩ ['a'] rfl
  · exact name_settings_transitions.2.2.2.2 ⟨.ConfirmingName, true, some ['a']⟩
      .clickYes ['a'] rfl (by rfl)

/- ### Drive lifecycle engine: `spawn_drive_thread` (src/main.rs 357-444)

One iteration of the thread's outer `loop` is linearized into the sequence of
externally visible actions it performs, as a function of the inputs that the
iteration consumes: the result of `fetch_iso_info`, the result of
`copy_disk_to_iso`, and the sequence of `status_message` values the
name-wait loop observes on its successive polls. -/

/-- Externally visible actions of one iteration of the drive thread's loop:
writes to `status_message`, the poll-until-inserted and poll-until-removed
waits, the best-effort eject after a metadata-fetch failure, and the
`persist_by_rename` commit of the staged temp file. -/
inductive CycleEv where
  | setStatus (s : DriveStatus)
  | waitInsertion
  | ejectAttempt
  | rename (name : List Char)
  | waitRemoval
  deriving DecidableEq

/-- The name-wait loop of `spawn_drive_thread` (src/main.rs 406-420): poll
the status until a `Saving(name)` is observed, returning that first observed
name (`none` when the observation sequence never shows `Saving`, i.e. the
loop is still polling). -/
def nameWait : List DriveStatus → Option (List Char)
  | [] => none
  | .Saving n :: _ => some n
  | _ :: rest => nameWait rest

/-- `true` exactly on `Saving` statuses. -/
def isSavingStatus : DriveStatus → Bool
  | .Saving _ => true
  | _ => false

/-- `true` exactly on `rename` events. -/
def isRenameEv : CycleEv → Bool
  | .rename _ => true
  | _ => false

/-- One iteration of the `spawn_drive_thread` loop (src/main.rs 365-442),
linearized in program order: set `NoDisk` and poll until `has_disk`; on
metadata-fetch failure, best-effort eject; on fetch success, set `Copying`,
run the copy, and either (read/write error) set the corresponding error
status, or (success) set `WaitingForName` and poll until a `Saving(name)` is
observed, then rename the staged file.  In every completed branch the thread
then unconditionally sets `Done` and polls until the disc is removed (the
trace is truncated while the name-wait loop is still polling). -/
def cycleEvents (fetch : Option ISOInfo) (copyRes : Except CopyError Unit)
    (obs : List DriveStatus) : List CycleEv :=
  [CycleEv.setStatus .NoDisk, CycleEv.waitInsertion] ++
  (match fetch with
   | none => [CycleEv.ejectAttempt, CycleEv.setStatus .Done, CycleEv.waitRemoval]
   | some _ =>
     CycleEv.setStatus .Copying ::
     (match copyRes with
      | .error .Read =>
        [CycleEv.setStatus .CopyReadError, CycleEv.setStatus .Done, CycleEv.waitRemoval]
      | .error .Write =>
        [CycleEv.setStatus .CopyWriteError, CycleEv.setStatus .Done, CycleEv.waitRemoval]
      | .ok _ =>
        CycleEv.setStatus .WaitingForName ::
        (match nameWait obs with
         | some n => [CycleEv.rename n, CycleEv.setStatus .Done, CycleEv.waitRemoval]
         | none => [])))

/-- C3: per insertion cycle the staged artifact is renamed at most once,
whatever the fetch result, copy result and observed statuses; it is renamed
exactly once — with the first observed `Saving` name — when the copy
succeeded and the operator set `Saving(name)`; and extra poll iterations that
observe non-`Saving` statuses before the operator acts do not change the
outcome (so no duplicate rename is possible however long the poll loop
runs). -/
theorem single_commit_per_cycle :
    (∀ (fetch : Option ISOInfo) (copyRes : Except CopyError Unit)
      (obs : List DriveStatus),
      (cycleEvents fetch copyRes obs).countP isRenameEv ≤ 1) ∧
    (∀ (info : ISOInfo) (obs : List DriveStatus) (n : List Char),
      nameWait obs = some n →
      (cycleEvents (some info) (Except.ok ()) obs).countP isRenameEv = 1 ∧
      CycleEv.rename n ∈ cycleEvents (some info) (Except.ok ()) obs) ∧
    (∀ (pre obs : List DriveStatus), (∀ s ∈ pre, isSavingStatus s = false) →
      nameWait (pre ++ obs) = nameWait obs) := by
  refine ⟨?_, ?_, ?_⟩
  · intro fetch copyRes obs
    match fetch with
    | none => simp [cycleEvents, List.countP_cons, isRenameEv]
    | some info =>
      match copyRes with
      | .error .Read => simp [cycleEvents, List.countP_cons, isRenameEv]
      | .error .Write => simp [cycleEvents, List.countP_cons, isRenameEv]
      | .ok _ =>
        match h : nameWait obs with
        | none => simp [cycleEvents, h, List.countP_cons, isRenameEv]
        | some n => simp [cycleEvents, h, List.countP_cons, isRenameEv]
  · intro info obs n h
    constructor
    · simp [cycleEvents, h, List.countP_cons, isRenameEv]
    · simp [cycleEvents, h]
  · intro pre obs hpre
    induction pre with
    | nil => simp
    | cons s rest ih =>
      have hs : isSavingStatus s = false := hpre s (by simp)
      have hrest : ∀ x ∈ rest, isSavingStatus x = false :=
        fun x hx => hpre x (by simp [hx])
      cases s <;> simp [isSavingStatus] at hs ⊢ <;> simp [nameWait, ih hrest]

/-- Witness for C3: one poll sequence that reaches `Saving`, one all-waiting
prefix. -/
theorem single_commit_per_cycle_witness :
    ((cycleEvents (some ⟨['D'], 2048, 10⟩) (Except.ok ())
        [.WaitingForName, .WaitingForName, .Saving ['x']]).countP isRenameEv = 1 ∧
      CycleEv.rename ['x'] ∈ cycleEvents (some ⟨['D'], 2048, 10⟩) (Except.ok ())
        [.WaitingForName, .WaitingForName, .Saving ['x']]) ∧
    nameWait ([.WaitingForName, .Done] ++ [.Saving ['x']]) =
      nameWait [.Saving ['x']] := by
  constructor
  · exact single_commit_per_cycle.2.1 ⟨['D'], 2048, 10⟩
      [.WaitingForName, .WaitingForName, .Saving ['x']] ['x'] (by rfl)
  · exact single_commit_per_cycle.2.2 [.WaitingForName, .Done] [.Saving ['x']]
      (by decide)

/-- C1 is refuted by the code: after a copy failure the thread does set the
corresponding error status (here `CopyReadError`), but the unconditional
write at src/main.rs line 436 immediately replaces it with `Done` — before
the wait for disc removal — so the error state does not remain visible until
`hasDisc` becomes false.  The trace below shows `setStatus Done` between
`setStatus CopyReadError` and `waitRemoval`. -/
theorem copy_error_overwritten_by_done :
    cycleEvents (some ⟨['D'], 2048, 20480⟩) (Except.error CopyError.Read) [] =
      [CycleEv.setStatus .NoDisk, CycleEv.waitInsertion,
       CycleEv.setStatus .Copying, CycleEv.setStatus .CopyReadError,
       CycleEv.setStatus .Done, CycleEv.waitRemoval] := by
  rfl

/- ### Volume metadata parser: `parse_iso_info` (src/main.rs 162-194) -/

/-- `terminated(take_until("\n"), char('\n'))`: one newline-terminated line. -/
def takeLine (input : List Char) : Option (List Char × List Char) := do
  let (input, line) ← takeUntil '\n' input
  let (input, _) ← charTag '\n' input
  some (input, line)

/-- nom `tag(t)` applied to a whole captured line: returns the remainder
after the literal prefix `t`, failing when `t` is not a prefix. -/
def stripTag (t : List Char) (input : List Char) : Option (List Char) :=
  if t.isPrefixOf input then some (input.drop t.length) else none

/-- Rust `str::parse::<usize>()`: an optional leading `+` followed by at
least one ASCII digit; anything else is a `ParseIntError` (overflow cannot
occur in the `Nat` model). -/
def rustParseUsize (s : List Char) : Option Nat :=
  let digits := match s with
    | '+' :: rest => rest
    | _ => s
  if digits ≠ [] ∧ digits.all (fun c => c.isDigit) then
    some (digits.foldl (fun acc c => acc * 10 + (c.toNat - '0'.toNat)) 0)
  else none

/-- The coarse line-splitting stage of `parse_iso_info` (src/main.rs
163-176): consume 14 newline-terminated lines, keeping lines 3, 13 and 14;
the returned remainder is the input after line 13, exactly as in the source
(line 14's remainder is discarded there). -/
def isoLines (input : List Char) :
    Option (List Char × List Char × List Char × List Char) := do
  let (i, _) ← takeLine input       -- Format
  let (i, _) ← takeLine i           -- System id
  let (i, volumeIdLine) ← takeLine i
  let (i, _) ← takeLine i           -- Volume set id
  let (i, _) ← takeLine i           -- Publisher id
  let (i, _) ← takeLine i           -- Data preparer id
  let (i, _) ← takeLine i           -- Application id
  let (i, _) ← takeLine i           -- Copyright File id
  let (i, _) ← takeLine i           -- Abstract File id
  let (i, _) ← takeLine i           -- Bibliographic File id
  let (i, _) ← takeLine i           -- Volume set size
  let (i, _) ← takeLine i           -- Volume set sequence number
  let (i, blockSizeLine) ← takeLine i
  let (_, numBlocksLine) ← takeLine i
  some (i, volumeIdLine, blockSizeLine, numBlocksLine)

/-- Possible outcomes of `parse_iso_info`: a successful parse, a nom error
(which `fetch_iso_info` maps to `DiskInfoError::Parse`), or a panic of the
`.parse().unwrap()` calls at src/main.rs lines 183 and 186. -/
inductive IsoOut where
  | ok (rest : List Char) (info : ISOInfo)
  | err
  | panicked
  deriving DecidableEq

/-- `parse_iso_info` (src/main.rs 162-194): split off 14 lines, then require
the literal prefixes `"Volume id: "`, `"Logical block size is: "` and
`"Volume size is: "` on lines 3, 13, 14; the numeric remainders go through
`str::parse::<usize>().unwrap()`, so a remainder that is not a valid
non-negative integer literal is a panic, not an `Err`.  On success the
`ISOInfo.length` is `number_of_blocks * block_size`. -/
def parse_iso_info (input : List Char) : IsoOut :=
  match isoLines input with
  | none => IsoOut.err
  | some (rest, volLine, bsLine, nbLine) =>
    match stripTag ("Volume id: ".toList) volLine with
    | none => IsoOut.err
    | some volumeId =>
      match stripTag ("Logical block size is: ".toList) bsLine with
      | none => IsoOut.err
      | some bsRest =>
        match rustParseUsize bsRest with
        | none => IsoOut.panicked
        | some blockSize =>
          match stripTag ("Volume size is: ".toList) nbLine with
          | none => IsoOut.err
          | some nbRest =>
            match rustParseUsize nbRest with
            | none => IsoOut.panicked
            | some numBlocks =>
              IsoOut.ok rest ⟨volumeId, blockSize, numBlocks * blockSize⟩

/-- C2 is contradicted by the code on non-numeric fields: on the spec's own
14-line success shape the parser does return
`VolumeInfo{name: "FOO", blockSize: 2048, totalBytes: 20480}`, but when the
remainder of line 13 is not a non-negative integer (here `"abc"`) the code
panics in `.parse().unwrap()` (src/main.rs 183) instead of returning a
`Parse` error — despite the source comment claiming the only possible panic
is bit-width overflow. -/
theorem iso_info_nonnumeric_panics :
    parse_iso_info ("ISO 9660\nSYS\nVolume id: FOO\na\nb\nc\nd\ne\nf\ng\n1\n1\nLogical block size is: 2048\nVolume size is: 10\n".toList) =
      IsoOut.ok ("Volume size is: 10\n".toList) ⟨"FOO".toList, 2048, 20480⟩ ∧
    parse_iso_info ("ISO 9660\nSYS\nVolume id: FOO\na\nb\nc\nd\ne\nf\ng\n1\n1\nLogical block size is: abc\nVolume size is: 10\n".toList) =
      IsoOut.panicked ∧
    parse_iso_info ("ISO 9660\nSYS\nVolume id: FOO\na\nb\nc\nd\ne\nf\ng\n1\n1\nLogical block size is: 2048\n".toList) =
      IsoOut.err := by
  refine ⟨?_, ?_, ?_⟩
  · rfl
  · rfl
  · rfl

/- ### Streaming copier: `copy_disk_to_iso` (src/main.rs 211-246)

The `Read` source is modelled as a schedule of read outcomes: `data bs`
yields (a prefix of) the bytes `bs`, `intr` is an `ErrorKind::Interrupted`
failure, `err` any other read failure.  The `Write` sink is modelled by a
schedule `wplan : List Bool` giving the outcome of each `write_all` call
(`true` = success; an exhausted schedule means every further write
succeeds). -/

/-- One read outcome of the source. -/
inductive ReadEv where
  | data (bs : List Nat)
  | intr
  | err
  deriving DecidableEq

/-- Sink-visible / callback-visible actions of the copy loop, in order:
`cb n` is an invocation of the progress callback with chunk size `n`,
`write c` a completed `write_all` of the chunk `c`. -/
inductive CopyEv where
  | cb (n : Nat)
  | write (c : List Nat)
  deriving DecidableEq

instance : DecidableEq (Except CopyError Unit) := fun a b =>
  match a, b with
  | .ok (), .ok () => isTrue rfl
  | .error x, .error y =>
    match decEq x y with
    | isTrue h => isTrue (by rw [h])
    | isFalse h => isFalse (by intro hc; cases hc; exact h rfl)
  | .ok _, .error _ => isFalse (by intro h; cases h)
  | .error _, .ok _ => isFalse (by intro h; cases h)

/-- Result of a copy run: the `Result<(), CopyError>` and the ordered trace
of callback invocations and completed writes. -/
structure CopyOut where
  res : Except CopyError Unit
  trace : List CopyEv
  deriving DecidableEq

/-- Termination measure of a read schedule. -/
def evMeasure : ReadEv → Nat
  | .data bs => bs.length + 1
  | .intr => 1
  | .err => 1

/-- Sum of `evMeasure` over a schedule. -/
def srcMeasure : List ReadEv → Nat
  | [] => 0
  | e :: rest => evMeasure e + srcMeasure rest

/-- Fuelled loop of `copy_disk_to_iso` (src/main.rs 223-243).  `limit` is the
remaining allowance of the `source.take(length)` adapter (a `take` with
exhausted allowance returns `Ok(0)` without reading); each read gets at most
`min bufLen limit` bytes; `Ok(0)` breaks the loop with success; an
interrupted read is retried without a callback or a write; any other read
failure returns `CopyError::Read`; after a successful read the callback is
invoked with the chunk length and then the chunk is written, a failing
`write_all` returning `CopyError::Write`.  The fuel only bounds the
recursion; `srcMeasure src` of fuel is always enough because every iteration
either consumes a schedule entry or shortens the pending `data` bytes. -/
def copyF : Nat → List ReadEv → List Bool → Nat → Nat → CopyOut
  | 0, _, _, _, _ => ⟨Except.ok (), []⟩
  | fuel + 1, src, wplan, limit, bufLen =>
    if limit = 0 then ⟨Except.ok (), []⟩
    else
      match src with
      | [] => ⟨Except.ok (), []⟩
      | .intr :: rest => copyF fuel rest wplan limit bufLen
      | .err :: _ => ⟨Except.error CopyError.Read, []⟩
      | .data bs :: rest =>
        let cap := min bufLen limit
        let chunk := bs.take cap
        if chunk = [] then ⟨Except.ok (), []⟩
        else
          match wplan with
          | false :: _ => ⟨Except.error CopyError.Write, [CopyEv.cb chunk.length]⟩
          | true :: wrest =>
            let src2 := if bs.drop cap = [] then rest else ReadEv.data (bs.drop cap) :: rest
            let out := copyF fuel src2 wrest (limit - chunk.length) bufLen
            ⟨out.res, CopyEv.cb chunk.length :: CopyEv.write chunk :: out.trace⟩
          | [] =>
            let src2 := if bs.drop cap = [] then rest else ReadEv.data (bs.drop cap) :: rest
            let out := copyF fuel src2 [] (limit - chunk.length) bufLen
            ⟨out.res, CopyEv.cb chunk.length :: CopyEv.write chunk :: out.trace⟩

/-- `copy_disk_to_iso source target length buffer_len` with the callback and
writes recorded in the output trace. -/
def copy_disk_to_iso (src : List ReadEv) (wplan : List Bool)
    (length bufLen : Nat) : CopyOut :=
  copyF (srcMeasure src + 1) src wplan length bufLen

/-- The trace of a run whose chunks were all read and written successfully:
callback then write, per chunk, in order. -/
def traceOfChunks : List (List Nat) → List CopyEv
  | [] => []
  | c :: cs => CopyEv.cb c.length :: CopyEv.write c :: traceOfChunks cs

/-- The callback arguments of a trace, in order. -/
def cbSizes (t : List CopyEv) : List Nat :=
  t.filterMap (fun e => match e with
    | .cb n => some n
    | _ => none)

/-- The completed writes of a trace, in order. -/
def writesOf (t : List CopyEv) : List (List Nat) :=
  t.filterMap (fun e => match e with
    | .write c => some c
    | _ => none)

/-- All bytes the source schedule can deliver, in order. -/
def srcData (src : List ReadEv) : List Nat :=
  (src.filterMap (fun e => match e with
    | .data bs => some bs
    | _ => none)).flatten

lemma cbSizes_traceOfChunks (cs : List (List Nat)) :
    cbSizes (traceOfChunks cs) = cs.map List.length := by
  induction cs with
  | nil => rfl
  | cons c cs ih => simp [traceOfChunks, cbSizes, List.filterMap_cons] at ih ⊢; exact ih

lemma writesOf_traceOfChunks (cs : List (List Nat)) :
    writesOf (traceOfChunks cs) = cs := by
  induction cs with
  | nil => rfl
  | cons c cs ih => simp [traceOfChunks, writesOf, List.filterMap_cons] at ih ⊢; exact ih

lemma srcData_cons_data (bs : List Nat) (rest : List ReadEv) :
    srcData (ReadEv.data bs :: rest) = bs ++ srcData rest := by
  simp [srcData, List.filterMap_cons]

lemma srcData_cons_intr (rest : List ReadEv) :
    srcData (ReadEv.intr :: rest) = srcData rest := by
  simp [srcData, List.filterMap_cons]

lemma copyF_limit_zero (fuel : Nat) (src : List ReadEv) (wplan : List Bool)
    (bufLen : Nat) : copyF (fuel + 1) src wplan 0 bufLen = ⟨Except.ok (), []⟩ := by
  simp [copyF]

lemma copyF_nil (fuel limit bufLen : Nat) (wplan : List Bool) :
    copyF (fuel + 1) [] wplan limit bufLen = ⟨Except.ok (), []⟩ := by
  by_cases hl : limit = 0 <;> simp [copyF, hl]

lemma copyF_intr (fuel limit bufLen : Nat) (rest : List ReadEv) (wplan : List Bool)
    (hl : limit ≠ 0) :
    copyF (fuel + 1) (ReadEv.intr :: rest) wplan limit bufLen =
      copyF fuel rest wplan limit bufLen := by
  simp [copyF, hl]

lemma copyF_err (fuel limit bufLen : Nat) (rest : List ReadEv) (wplan : List Bool)
    (hl : limit ≠ 0) :
    copyF (fuel + 1) (ReadEv.err :: rest) wplan limit bufLen =
      ⟨Except.error CopyError.Read, []⟩ := by
  simp [copyF, hl]

lemma copyF_data_empty (fuel limit bufLen : Nat) (bs : List Nat)
    (rest : List ReadEv) (wplan : List Bool) (hl : limit ≠ 0)
    (hc : bs.take (min bufLen limit) = []) :
    copyF (fuel + 1) (ReadEv.data bs :: rest) wplan limit bufLen =
      ⟨Except.ok (), []⟩ := by
  simp [copyF, hl, hc]

lemma copyF_data_wfail (fuel limit bufLen : Nat) (bs : List Nat)
    (rest : List ReadEv) (wplan : List Bool) (hl : limit ≠ 0)
    (hc : bs.take (min bufLen limit) ≠ []) :
    copyF (fuel + 1) (ReadEv.data bs :: rest) (false :: wplan) limit bufLen =
      ⟨Except.error CopyError.Write, [CopyEv.cb (bs.take (min bufLen limit)).length]⟩ := by
  simp [copyF, hl, hc]

lemma copyF_data_wtrue (fuel limit bufLen : Nat) (bs : List Nat)
    (rest : List ReadEv) (wrest : List Bool) (hl : limit ≠ 0)
    (hc : bs.take (min bufLen limit) ≠ []) :
    copyF (fuel + 1) (ReadEv.data bs :: rest) (true :: wrest) limit bufLen =
      ⟨(copyF fuel
          (if bs.drop (min bufLen limit) = [] then rest
           else ReadEv.data (bs.drop (min bufLen limit)) :: rest)
          wrest (limit - (bs.take (min bufLen limit)).length) bufLen).res,
        CopyEv.cb (bs.take (min bufLen limit)).length ::
        CopyEv.write (bs.take (min bufLen limit)) ::
        (copyF fuel
          (if bs.drop (min bufLen limit) = [] then rest
           else ReadEv.data (bs.drop (min bufLen limit)) :: rest)
          wrest (limit - (bs.take (min bufLen limit)).length) bufLen).trace⟩ := by
  simp [copyF, hl, hc]

lemma copyF_data_wnil (fuel limit bufLen : Nat) (bs : List Nat)
    (rest : List ReadEv) (hl : limit ≠ 0)
    (hc : bs.take (min bufLen limit) ≠ []) :
    copyF (fuel + 1) (ReadEv.data bs :: rest) [] limit bufLen =
      ⟨(copyF fuel
          (if bs.drop (min bufLen limit) = [] then rest
           else ReadEv.data (bs.drop (min bufLen limit)) :: rest)
          [] (limit - (bs.take (min bufLen limit)).length) bufLen).res,
        CopyEv.cb (bs.take (min bufLen limit)).length ::
        CopyEv.write (bs.take (min bufLen limit)) ::
        (copyF fuel
          (if bs.drop (min bufLen limit) = [] then rest
           else ReadEv.data (bs.drop (min bufLen limit)) :: rest)
          [] (limit - (bs.take (min bufLen limit)).length) bufLen).trace⟩ := by
  simp [copyF, hl, hc]

lemma srcMeasure_src2_lt (fuel limit bufLen : Nat) (bs : List Nat)
    (rest : List ReadEv) (hm : srcMeasure (ReadEv.data bs :: rest) < fuel + 1)
    (hc : bs.take (min bufLen limit) ≠ []) :
    srcMeasure
      (if bs.drop (min bufLen limit) = [] then rest
       else ReadEv.data (bs.drop (min bufLen limit)) :: rest) < fuel := by
  have hbs : bs ≠ [] := by
    intro h
    apply hc
    simp [h]
  have hcap : min bufLen limit ≠ 0 := by
    intro h
    apply hc
    simp [h]
  have hmeq : srcMeasure (ReadEv.data bs :: rest) = bs.length + 1 + srcMeasure rest := by
    simp [srcMeasure, evMeasure]
  by_cases hd : bs.drop (min bufLen limit) = []
  · rw [if_pos hd]
    omega
  · rw [if_neg hd]
    have hdm : srcMeasure (ReadEv.data (bs.drop (min bufLen limit)) :: rest) =
        (bs.length - min bufLen limit) + 1 + srcMeasure rest := by
      simp [srcMeasure, evMeasure]
    have hlen : bs.length ≠ 0 := by
      intro h
      exact hbs (List.length_eq_zero.mp h)
    omega

lemma err_not_mem_src2 (limit bufLen : Nat) (bs : List Nat) (rest : List ReadEv)
    (herr : ReadEv.err ∉ (ReadEv.data bs :: rest)) :
    ReadEv.err ∉
      (if bs.drop (min bufLen limit) = [] then rest
       else ReadEv.data (bs.drop (min bufLen limit)) :: rest) := by
  have hrest : ReadEv.err ∉ rest := fun h => herr (List.mem_cons_of_mem _ h)
  by_cases hd : bs.drop (min bufLen limit) = []
  · rw [if_pos hd]; exact hrest
  · rw [if_neg hd]
    intro h
    rcases List.mem_cons.mp h with h | h
    · exact ReadEv.noConfusion h
    · exact hrest h

lemma copyF_success_spec :
    ∀ (fuel : Nat) (src : List ReadEv) (wplan : List Bool) (limit bufLen : Nat),
      srcMeasure src < fuel → ReadEv.err ∉ src → (∀ b ∈ wplan, b = true) →
      ∃ chunks : List (List Nat),
        copyF fuel src wplan limit bufLen = ⟨Except.ok (), traceOfChunks chunks⟩ ∧
        (∀ c ∈ chunks, c ≠ [] ∧ c.length ≤ bufLen) ∧
        (chunks.map List.length).sum ≤ limit ∧
        (∃ t, chunks.flatten ++ t = srcData src) := by
  intro fuel
  induction fuel with
  | zero =>
    intro src wplan limit bufLen hm
    omega
  | succ fuel ih =>
    intro src wplan limit bufLen hm herr hw
    by_cases hl : limit = 0
    · subst hl
      exact ⟨[], by simp [copyF_limit_zero, traceOfChunks], by simp, by simp,
        ⟨srcData src, by simp⟩⟩
    · match src with
      | [] =>
        exact ⟨[], by simp [copyF_nil, traceOfChunks], by simp, by simp,
          ⟨srcData [], by simp⟩⟩
      | .intr :: rest =>
        have hm2 : srcMeasure rest < fuel := by
          simp [srcMeasure, evMeasure] at hm
          omega
        have herr2 : ReadEv.err ∉ rest := fun h => herr (List.mem_cons_of_mem _ h)
        obtain ⟨chunks, heq, hlen, hsum, t, ht⟩ :=
          ih rest wplan limit bufLen hm2 herr2 hw
        exact ⟨chunks, by rw [copyF_intr fuel limit bufLen rest wplan hl]; exact heq,
          hlen, hsum, ⟨t, by rw [srcData_cons_intr]; exact ht⟩⟩
      | .err :: rest =>
        exact absurd (List.mem_cons_self _ _) herr
      | .data bs :: rest =>
        by_cases hc : bs.take (min bufLen limit) = []
        · exact ⟨[], by simp [copyF_data_empty fuel limit bufLen bs rest wplan hl hc,
            traceOfChunks], by simp, by simp, ⟨srcData (ReadEv.data bs :: rest), by simp⟩⟩
        · have hm2 := srcMeasure_src2_lt fuel limit bufLen bs rest hm hc
          have herr2 := err_not_mem_src2 limit bufLen bs rest herr
          have hchlen : (bs.take (min bufLen limit)).length ≤ min bufLen limit := by
            simp [List.length_take]
          have hchpos : (bs.take (min bufLen limit)).length ≠ 0 := by
            intro h
            exact hc (List.length_eq_zero.mp h)
          have hflat : ∀ t2 : List Nat,
              (bs.take (min bufLen limit)) ::
                  (fun chunks2 => chunks2) [] = [] → True := fun _ _ => trivial
          have hdata : ∀ (chunks2 : List (List Nat)) (t2 : List Nat),
              chunks2.flatten ++ t2 =
                srcData (if bs.drop (min bufLen limit) = [] then rest
                  else ReadEv.data (bs.drop (min bufLen limit)) :: rest) →
              ((bs.take (min bufLen limit)) :: chunks2).flatten ++ t2 =
                srcData (ReadEv.data bs :: rest) := by
            intro chunks2 t2 h2
            rw [srcData_cons_data]
            by_cases hd : bs.drop (min bufLen limit) = []
            · rw [if_pos hd] at h2
              have hbs : bs.take (min bufLen limit) = bs := by
                conv_rhs => rw [← List.take_append_drop (min bufLen limit) bs]
                rw [hd, List.append_nil]
              simp only [List.flatten_cons, List.append_assoc, h2, hbs]
            · rw [if_neg hd, srcData_cons_data] at h2
              have : bs.take (min bufLen limit) ++ bs.drop (min bufLen limit) = bs :=
                List.take_append_drop _ _
              simp only [List.flatten_cons, List.append_assoc, h2]
              rw [← List.append_assoc, this]
          match wplan with
          | [] =>
            obtain ⟨chunks2, heq2, hlen2, hsum2, t2, ht2⟩ :=
              ih _ [] (limit - (bs.take (min bufLen limit)).length) bufLen hm2 herr2
                (by simp)
            refine ⟨bs.take (min bufLen limit) :: chunks2, ?_, ?_, ?_, ⟨t2, hdata chunks2 t2 ht2⟩⟩
            · rw [copyF_data_wnil fuel limit bufLen bs rest hl hc, heq2]
              simp [traceOfChunks]
            · intro c hcm
              rcases List.mem_cons.mp hcm with h | h
              · subst h
                exact ⟨hc, by omega⟩
              · exact hlen2 c h
            · simp only [List.map_cons, List.sum_cons]
              omega
          | true :: wrest =>
            obtain ⟨chunks2, heq2, hlen2, hsum2, t2, ht2⟩ :=
              ih _ wrest (limit - (bs.take (min bufLen limit)).length) bufLen hm2 herr2
                (fun b hb => hw b (List.mem_cons_of_mem _ hb))
            refine ⟨bs.take (min bufLen limit) :: chunks2, ?_, ?_, ?_, ⟨t2, hdata chunks2 t2 ht2⟩⟩
            · rw [copyF_data_wtrue fuel limit bufLen bs rest wrest hl hc, heq2]
              simp [traceOfChunks]
            · intro c hcm
              rcases List.mem_cons.mp hcm with h | h
              · subst h
                exact ⟨hc, by omega⟩
              · exact hlen2 c h
            · simp only [List.map_cons, List.sum_cons]
              omega
          | false :: wrest =>
            exact absurd (hw false (List.mem_cons_self _ _)) (by simp)

/-- C6: with a positive buffer size, a source with no hard read failure and a
sink whose writes all succeed, the copy terminates with success (also when
the source runs out before `length` bytes), and its trace is exactly
"callback with the chunk's size, then full write of that chunk", per chunk in
order; every chunk is non-empty and at most `bufferSize` long; the callback
sizes are the written chunks' sizes, the writes are the chunks themselves,
their total is at most `length`, and the written bytes are, in order, a
prefix of the source's bytes. -/
theorem streaming_copier_progress_and_order :
    ∀ (src : List ReadEv) (wplan : List Bool) (length bufLen : Nat),
      0 < bufLen → ReadEv.err ∉ src → (∀ b ∈ wplan, b = true) →
      ∃ chunks : List (List Nat),
        copy_disk_to_iso src wplan length bufLen =
          ⟨Except.ok (), traceOfChunks chunks⟩ ∧
        cbSizes (copy_disk_to_iso src wplan length bufLen).trace =
          chunks.map List.length ∧
        writesOf (copy_disk_to_iso src wplan length bufLen).trace = chunks ∧
        (∀ c ∈ chunks, c ≠ [] ∧ c.length ≤ bufLen) ∧
        (chunks.map List.length).sum ≤ length ∧
        (∃ t, chunks.flatten ++ t = srcData src) := by
  intro src wplan length bufLen _ herr hw
  obtain ⟨chunks, heq, hlen, hsum, t, ht⟩ :=
    copyF_success_spec (srcMeasure src + 1) src wplan length bufLen
      (by omega) herr hw
  have hcd : copy_disk_to_iso src wplan length bufLen =
      ⟨Except.ok (), traceOfChunks chunks⟩ := heq
  refine ⟨chunks, hcd, ?_, ?_, hlen, hsum, ⟨t, ht⟩⟩
  · rw [hcd]
    exact cbSizes_traceOfChunks chunks
  · rw [hcd]
    exact writesOf_traceOfChunks chunks

/-- Witness for C6: a 12-byte source copied with `length = 20`,
`bufferSize = 7`: chunks 7 + 3 + 2, one transparent retry in the middle,
success at end-of-input. -/
theorem streaming_copier_progress_and_order_witness :
    (0 < 7) ∧
    (ReadEv.err ∉ [ReadEv.data [1, 2, 3, 4, 5, 6, 7, 8, 9, 10], ReadEv.intr,
      ReadEv.data [11, 12]]) ∧
    (∀ b ∈ ([] : List Bool), b = true) ∧
    (∃ chunks : List (List Nat),
      copy_disk_to_iso
          [ReadEv.data [1, 2, 3, 4, 5, 6, 7, 8, 9, 10], ReadEv.intr,
            ReadEv.data [11, 12]] [] 20 7 =
        ⟨Except.ok (), traceOfChunks chunks⟩ ∧
      cbSizes (copy_disk_to_iso
          [ReadEv.data [1, 2, 3, 4, 5, 6, 7, 8, 9, 10], ReadEv.intr,
            ReadEv.data [11, 12]] [] 20 7).trace = chunks.map List.length ∧
      writesOf (copy_disk_to_iso
          [ReadEv.data [1, 2, 3, 4, 5, 6, 7, 8, 9, 10], ReadEv.intr,
            ReadEv.data [11, 12]] [] 20 7).trace = chunks ∧
      (∀ c ∈ chunks, c ≠ [] ∧ c.length ≤ 7) ∧
      (chunks.map List.length).sum ≤ 20 ∧
      (∃ t, chunks.flatten ++ t = srcData
        [ReadEv.data [1, 2, 3, 4, 5, 6, 7, 8, 9, 10], ReadEv.intr,
          ReadEv.data [11, 12]])) := by
  refine ⟨by decide, by decide, by simp, ?_⟩
  exact streaming_copier_progress_and_order
    [ReadEv.data [1, 2, 3, 4, 5, 6, 7, 8, 9, 10], ReadEv.intr, ReadEv.data [11, 12]]
    [] 20 7 (by decide) (by decide) (by simp)

lemma copyF_trace_shape :
    ∀ (fuel : Nat) (src : List ReadEv) (wplan : List Bool) (limit bufLen : Nat),
      srcMeasure src < fuel →
      ((copyF fuel src wplan limit bufLen).res = Except.error CopyError.Write →
        ∃ (chunks : List (List Nat)) (k : Nat),
          (copyF fuel src wplan limit bufLen).trace =
            traceOfChunks chunks ++ [CopyEv.cb k]) ∧
      ((copyF fuel src wplan limit bufLen).res ≠ Except.error CopyError.Write →
        ∃ chunks : List (List Nat),
          (copyF fuel src wplan limit bufLen).trace = traceOfChunks chunks) := by
  intro fuel
  induction fuel with
  | zero =>
    intro src wplan limit bufLen hm
    omega
  | succ fuel ih =>
    intro src wplan limit bufLen hm
    by_cases hl : limit = 0
    · subst hl
      rw [copyF_limit_zero]
      exact ⟨by intro h; exact absurd h (by simp), fun _ => ⟨[], rfl⟩⟩
    · match src with
      | [] =>
        rw [copyF_nil]
        exact ⟨by intro h; exact absurd h (by simp), fun _ => ⟨[], rfl⟩⟩
      | .intr :: rest =>
        rw [copyF_intr fuel limit bufLen rest wplan hl]
        exact ih rest wplan limit bufLen
          (by simp [srcMeasure, evMeasure] at hm ⊢; omega)
      | .err :: rest =>
        rw [copyF_err fuel limit bufLen rest wplan hl]
        exact ⟨by intro h; exact absurd h (by simp), fun _ => ⟨[], rfl⟩⟩
      | .data bs :: rest =>
        by_cases hc : bs.take (min bufLen limit) = []
        · rw [copyF_data_empty fuel limit bufLen bs rest wplan hl hc]
          exact ⟨by intro h; exact absurd h (by simp), fun _ => ⟨[], rfl⟩⟩
        · have hm2 := srcMeasure_src2_lt fuel limit bufLen bs rest hm hc
          match wplan with
          | false :: wrest =>
            rw [copyF_data_wfail fuel limit bufLen bs rest wrest hl hc]
            constructor
            · intro _
              exact ⟨[], (bs.take (min bufLen limit)).length, by simp [traceOfChunks]⟩
            · intro h
              exact absurd rfl h
          | true :: wrest =>
            rw [copyF_data_wtrue fuel limit bufLen bs rest wrest hl hc]
            obtain ⟨hwr, hok⟩ := ih _ wrest (limit - (bs.take (min bufLen limit)).length)
              bufLen hm2
            constructor
            · intro h
              obtain ⟨chunks, k, htr⟩ := hwr h
              exact ⟨bs.take (min bufLen limit) :: chunks, k,
                by simp only [traceOfChunks, List.cons_append]; rw [htr]⟩
            · intro h
              obtain ⟨chunks, htr⟩ := hok h
              exact ⟨bs.take (min bufLen limit) :: chunks,
                by simp only [traceOfChunks]; rw [htr]⟩
          | [] =>
            rw [copyF_data_wnil fuel limit bufLen bs rest hl hc]
            obtain ⟨hwr, hok⟩ := ih _ [] (limit - (bs.take (min bufLen limit)).length)
              bufLen hm2
            constructor
            · intro h
              obtain ⟨chunks, k, htr⟩ := hwr h
              exact ⟨bs.take (min bufLen limit) :: chunks, k,
                by simp only [traceOfChunks, List.cons_append]; rw [htr]⟩
            · intro h
              obtain ⟨chunks, htr⟩ := hok h
              exact ⟨bs.take (min bufLen limit) :: chunks,
                by simp only [traceOfChunks]; rw [htr]⟩

/-- C7: during a copy, an interrupted read is retried transparently — the
whole run equals the run without that read outcome, so no callback and no
write happen for it; any other read failure terminates the run immediately
with `CopyError::Read` (empty trace at that point); a failing write
terminates the run with `CopyError::Write` after the chunk's callback but
with the chunk not written; and in every run each read chunk is fully
written directly after its callback — the trace is a sequence of
(callback, full chunk write) pairs, with at most one trailing
chunk-callback whose write failed (present exactly when the result is
`CopyError::Write`). -/
theorem streaming_copier_error_handling :
    (∀ (rest : List ReadEv) (wplan : List Bool) (limit bufLen : Nat), limit ≠ 0 →
      copy_disk_to_iso (ReadEv.intr :: rest) wplan limit bufLen =
        copy_disk_to_iso rest wplan limit bufLen) ∧
    (∀ (rest : List ReadEv) (wplan : List Bool) (limit bufLen : Nat), limit ≠ 0 →
      copy_disk_to_iso (ReadEv.err :: rest) wplan limit bufLen =
        ⟨Except.error CopyError.Read, []⟩) ∧
    (∀ (bs : List Nat) (rest : List ReadEv) (wplan : List Bool) (limit bufLen : Nat),
      limit ≠ 0 → bs.take (min bufLen limit) ≠ [] →
      copy_disk_to_iso (ReadEv.data bs :: rest) (false :: wplan) limit bufLen =
        ⟨Except.error CopyError.Write, [CopyEv.cb (bs.take (min bufLen limit)).length]⟩) ∧
    (∀ (src : List ReadEv) (wplan : List Bool) (limit bufLen : Nat),
      ((copy_disk_to_iso src wplan limit bufLen).res = Except.error CopyError.Write →
        ∃ (chunks : List (List Nat)) (k : Nat),
          (copy_disk_to_iso src wplan limit bufLen).trace =
            traceOfChunks chunks ++ [CopyEv.cb k]) ∧
      ((copy_disk_to_iso src wplan limit bufLen).res ≠ Except.error CopyError.Write →
        ∃ chunks : List (List Nat),
          (copy_disk_to_iso src wplan limit bufLen).trace = traceOfChunks chunks)) := by
  refine ⟨?_, ?_, ?_, ?_⟩
  · intro rest wplan limit bufLen hl
    show copyF (srcMeasure (ReadEv.intr :: rest) + 1) _ _ _ _ = _
    have h1 : srcMeasure (ReadEv.intr :: rest) = srcMeasure rest + 1 := by
      simp [srcMeasure, evMeasure, Nat.add_comm]
    rw [h1]
    exact copyF_intr (srcMeasure rest + 1) limit bufLen rest wplan hl
  · intro rest wplan limit bufLen hl
    exact copyF_err (srcMeasure (ReadEv.err :: rest)) limit bufLen rest wplan hl
  · intro bs rest wplan limit bufLen hl hc
    exact copyF_data_wfail (srcMeasure (ReadEv.data bs :: rest)) limit bufLen bs rest
      wplan hl hc
  · intro src wplan limit bufLen
    exact copyF_trace_shape (srcMeasure src + 1) src wplan limit bufLen (by omega)

/-- Witness for C7 at concrete schedules: a retried interruption, an
immediate read error, a failing first write (callback fired, nothing
written), and the trailing-callback trace shape of that failing run. -/
theorem streaming_copier_error_handling_witness :
    copy_disk_to_iso [ReadEv.intr, ReadEv.data [1]] [] 5 2 =
      copy_disk_to_iso [ReadEv.data [1]] [] 5 2 ∧
    copy_disk_to_iso [ReadEv.err] [] 5 2 = ⟨Except.error CopyError.Read, []⟩ ∧
    copy_disk_to_iso [ReadEv.data [1, 2, 3]] [false] 5 2 =
      ⟨Except.error CopyError.Write, [CopyEv.cb 2]⟩ ∧
    (∃ (chunks : List (List Nat)) (k : Nat),
      (copy_disk_to_iso [ReadEv.data [1, 2, 3]] [false] 5 2).trace =
        traceOfChunks chunks ++ [CopyEv.cb k]) := by
  refine ⟨?_, ?_, ?_, ?_⟩
  · exact streaming_copier_error_handling.1 [ReadEv.data [1]] [] 5 2 (by decide)
  · exact streaming_copier_error_handling.2.1 [] [] 5 2 (by decide)
  · have := streaming_copier_error_handling.2.2.1 [1, 2, 3] [] [] 5 2
      (by decide) (by decide)
    simpa using this
  · exact (streaming_copier_error_handling.2.2.2 [ReadEv.data [1, 2, 3]] [false] 5 2).1
      (by decide)

/- ### Presence parser and poller: `parse_bulk_id_list` / `check_disks_in_drives`
(src/main.rs 138-160) -/

/-- nom `many0(p)` with fuel: collects results of `p` until it fails,
returning the remaining input; like nom, it errors (only) when `p` succeeds
without consuming input (nom's `Many0` infinite-loop guard).  Fuel
`input.length + 1` is always sufficient for a consuming `p`. -/
def many0F {α : Type} (p : List Char → Option (List Char × α)) :
    Nat → List Char → Option (List Char × List α)
  | 0, _ => none
  | fuel + 1, input =>
    match p input with
    | none => some (input, [])
    | some (rest, a) =>
      if rest.length < input.length then
        match many0F p fuel rest with
        | none => none
        | some (rest2, items) => some (rest2, a :: items)
      else none

/-- The inner tuple of `parse_bulk_id_list` (src/main.rs 140-143): one
`<path>:<rest>\n` line, as the pair `(path, rest)`. -/
def parsePresenceLine (input : List Char) :
    Option (List Char × (List Char × List Char)) := do
  let (input, path) ← takeUntil ':' input
  let (input, _) ← charTag ':' input
  let (input, rest) ← takeUntil '\n' input
  let (input, _) ← charTag '\n' input
  some (input, (path, rest))

/-- `parse_bulk_id_list` (src/main.rs 138-145): `many0` over the line
parser. -/
def parse_bulk_id_list (input : List Char) :
    Option (List Char × List (List Char × List Char)) :=
  many0F parsePresenceLine (input.length + 1) input

/-- The per-drive update of `check_disks_in_drives` (src/main.rs 155-157):
`has_disk` is swapped to whether some parsed pair's path is a
string-prefix of the drive's `file` (`drive.file.starts_with(e.0)`). -/
def updateDrive (disks : List (List Char × List Char)) (d : DiskDrive) : DiskDrive :=
  { d with has_disk := (disks.find? (fun e => e.1.isPrefixOf d.file)).isSome }

/-- `check_disks_in_drives` (src/main.rs 147-160) at the text level: parse
the `blkid` output and update every drive's `has_disk`; a parse failure is
`DiskInfoError::Parse` (`none`). -/
def check_disks_in_drives (input : List Char) (drives : List DiskDrive) :
    Option (List DiskDrive) :=
  match parse_bulk_id_list input with
  | none => none
  | some (_, disks) => some (drives.map (updateDrive disks))

lemma find?_isSome_iff {α : Type} (p : α → Bool) (l : List α) :
    (l.find? p).isSome = true ↔ ∃ x ∈ l, p x = true := by
  induction l with
  | nil => simp [List.find?]
  | cons a rest ih =>
    rw [List.find?]
    cases hp : p a with
    | true => simp [hp]
    | false =>
      simp only [ih]
      constructor
      · intro ⟨x, hx, hpx⟩
        exact ⟨x, List.mem_cons_of_mem _ hx, hpx⟩
      · intro ⟨x, hx, hpx⟩
        rcases List.mem_cons.mp hx with h | h
        · subst h
          rw [hp] at hpx
          exact absurd hpx (by simp)
        · exact ⟨x, h, hpx⟩

/-- C8: after a presence poll whose output parses to `pairs`, every drive's
`hasDisc` is exactly "some parsed pair's path is a string-prefix of the
drive's devicePath", and the update is a pure function of the latest parse —
the old `hasDisc` value does not influence the new one (not sticky). -/
theorem presence_iff_prefix :
    ∀ (input : List Char) (drives : List DiskDrive) (rest : List Char)
      (pairs : List (List Char × List Char)) (d : DiskDrive),
      parse_bulk_id_list input = some (rest, pairs) →
      check_disks_in_drives input drives = some (drives.map (updateDrive pairs)) ∧
      ((updateDrive pairs d).has_disk = true ↔
        ∃ pr ∈ pairs, pr.1.isPrefixOf d.file = true) ∧
      (∀ b : Bool, updateDrive pairs { d with has_disk := b } = updateDrive pairs d) := by
  intro input drives rest pairs d hparse
  refine ⟨?_, ?_, ?_⟩
  · rw [check_disks_in_drives, hparse]
  · rw [updateDrive]
    exact find?_isSome_iff _ pairs
  · intro b
    cases d
    simp [updateDrive]

/-- Witness for C8: one parsed `blkid` line whose path is a prefix of the
drive's device path. -/
theorem presence_iff_prefix_witness :
    parse_bulk_id_list ("/dev/s: UUID=x\n".toList) =
      some ([], [("/dev/s".toList, " UUID=x".toList)]) ∧
    check_disks_in_drives ("/dev/s: UUID=x\n".toList)
        [⟨"/dev/sr0".toList, false, .NoDisk⟩] =
      some
        [updateDrive [("/dev/s".toList, " UUID=x".toList)]
          ⟨"/dev/sr0".toList, false, .NoDisk⟩] ∧
    ((updateDrive [("/dev/s".toList, " UUID=x".toList)]
        ⟨"/dev/sr0".toList, false, .NoDisk⟩).has_disk = true ↔
      ∃ pr ∈ [("/dev/s".toList, " UUID=x".toList)],
        pr.1.isPrefixOf ("/dev/sr0".toList) = true) ∧
    (∀ b : Bool,
      updateDrive [("/dev/s".toList, " UUID=x".toList)]
          ⟨"/dev/sr0".toList, b, .NoDisk⟩ =
        updateDrive [("/dev/s".toList, " UUID=x".toList)]
          ⟨"/dev/sr0".toList, false, .NoDisk⟩) := by
  have h := presence_iff_prefix ("/dev/s: UUID=x\n".toList)
    [⟨"/dev/sr0".toList, false, .NoDisk⟩] []
    [("/dev/s".toList, " UUID=x".toList)]
    ⟨"/dev/sr0".toList, false, .NoDisk⟩ (by decide)
  exact ⟨by decide, h.1, h.2.1, h.2.2⟩

/-- C10: when some parsed pair of the identification output has an empty
path — as produced by an output line beginning with `':'` — the empty string
is a prefix of every device path, so the poll sets `hasDisc` to `true` for
every drive. -/
theorem empty_path_matches_all_drives :
    ∀ (input : List Char) (drives : List DiskDrive) (rest r : List Char)
      (pairs : List (List Char × List Char)),
      parse_bulk_id_list input = some (rest, pairs) → ([], r) ∈ pairs →
      ∀ d ∈ drives.map (updateDrive pairs), d.has_disk = true := by
  intro input drives rest r pairs hparse hmem d hd
  obtain ⟨d0, _, hd0⟩ := List.mem_map.mp hd
  subst hd0
  rw [updateDrive]
  simp only
  rw [find?_isSome_iff]
  exact ⟨([], r), hmem, by simp [List.isPrefixOf]⟩

/-- Witness for C10: an output line beginning with `':'` parses to a pair
with empty path and makes an arbitrary drive report a disc. -/
theorem empty_path_matches_all_drives_witness :
    parse_bulk_id_list (":garbage\n".toList) =
      some ([], [([], "garbage".toList)]) ∧
    (([] : List Char), "garbage".toList) ∈ [(([] : List Char), "garbage".toList)] ∧
    ∀ d ∈ [⟨"/dev/sr0".toList, false, .NoDisk⟩,
           ⟨"/dev/sr1".toList, false, .Done⟩].map
        (updateDrive [([], "garbage".toList)]), d.has_disk = true := by
  refine ⟨by decide, by simp, ?_⟩
  exact empty_path_matches_all_drives (":garbage\n".toList)
    [⟨"/dev/sr0".toList, false, .NoDisk⟩, ⟨"/dev/sr1".toList, false, .Done⟩]
    [] ("garbage".toList) [([], "garbage".toList)] (by decide) (by simp)

/- ### Inventory parser: `parse_disk_drive_list` (src/main.rs 82-111) -/

/-- The five captures of the per-line tuple of `parse_disk_drive_list`
(src/main.rs 84-90): the bracketed id, the whitespace after `]`, the type
token (`take_until(" ")`), the text before the first `/` and the device path
(from that `/` to the end of the line). -/
structure LsLine where
  bracketId : List Char
  spacing : List Char
  typeToken : List Char
  preamble : List Char
  devPath : List Char
  deriving DecidableEq

/-- One line of `lsscsi` output as parsed by the tuple at src/main.rs 84-90:
`preceded(char('['), terminated(take_until("]"), char(']')))`, `multispace0`,
`terminated(take_until(" "), multispace0)`, `take_until("/")`,
`terminated(take_until("\n"), char('\n'))`. -/
def parse_lsscsi_line (input : List Char) : Option (List Char × LsLine) :=
  match charTag '[' input with
  | none => none
  | some (i1, _) =>
    match takeUntil ']' i1 with
    | none => none
    | some (i2, bracketId) =>
      match charTag ']' i2 with
      | none => none
      | some (i3, _) =>
        match multispace0 i3 with
        | (i4, spacing) =>
          match takeUntil ' ' i4 with
          | none => none
          | some (i5, typeToken) =>
            match multispace0 i5 with
            | (i6, _) =>
              match takeUntil '/' i6 with
              | none => none
              | some (i7, preamble) =>
                match takeUntil '\n' i7 with
                | none => none
                | some (i8, devPath) =>
                  match charTag '\n' i8 with
                  | none => none
                  | some (i9, _) =>
                    some (i9, ⟨bracketId, spacing, typeToken, preamble, devPath⟩)

/-- The drive-collection loop of `parse_disk_drive_list` (src/main.rs
93-108): keep the lines whose type token is `"cd/dvd"`, and build each
`DiskDrive` from the captured path with its last character removed
(`drive.file.remove(len - 1)`; the parser guarantees the capture starts
with `/`, hence is non-empty). -/
def drivesOfLines (lines : List LsLine) : List DiskDrive :=
  lines.filterMap (fun l =>
    if l.typeToken = "cd/dvd".toList then
      some ⟨l.devPath.dropLast, false, DriveStatus.Setup⟩
    else none)

/-- `parse_disk_drive_list` (src/main.rs 82-111): `many0` over the line
tuple, then the `cd/dvd` filter. -/
def parse_disk_drive_list (input : List Char) :
    Option (List Char × List DiskDrive) :=
  match many0F parse_lsscsi_line (input.length + 1) input with
  | none => none
  | some (rest, lines) => some (rest, drivesOfLines lines)

/-- A well-formed `lsscsi` line, in the sense of §4.1 of the spec:
`[<bracketed-id>]<whitespace><type-token><whitespace>...<device-path>\n`,
with the bracket id free of `]`, space/tab whitespace runs, a non-empty
whitespace-free type token, a preamble free of `/` and `\n`, and a device
path starting with `/` and free of `\n`. -/
structure RawLsLine where
  bracketId : List Char
  ws1 : List Char
  tok : List Char
  ws2 : List Char
  pre : List Char
  path : List Char
  deriving DecidableEq

/-- The text of a raw line. -/
def RawLsLine.render (l : RawLsLine) : List Char :=
  '[' :: (l.bracketId ++ ']' ::
    (l.ws1 ++ (l.tok ++ ' ' :: (l.ws2 ++ (l.pre ++ (l.path ++ ['\n']))))))

/-- Well-formedness of a raw line (decidable, so witnesses can be checked by
evaluation). -/
def RawLsLine.WF (l : RawLsLine) : Prop :=
  ']' ∉ l.bracketId ∧ '\n' ∉ l.bracketId ∧
  (∀ c ∈ l.ws1, c = ' ' ∨ c = '\t') ∧
  l.tok ≠ [] ∧ (∀ c ∈ l.tok, isMultispace c = false) ∧
  (∀ c ∈ l.ws2, c = ' ' ∨ c = '\t') ∧
  '/' ∉ l.pre ∧ '\n' ∉ l.pre ∧
  l.path.head? = some '/' ∧ '\n' ∉ l.path

instance (l : RawLsLine) : Decidable l.WF := by
  unfold RawLsLine.WF
  infer_instance

lemma charTag_self (c : Char) (xs : List Char) :
    charTag c (c :: xs) = some (xs, c) := by
  simp [charTag]

lemma takeUntil_split (c : Char) :
    ∀ (a b : List Char), c ∉ a → takeUntil c (a ++ c :: b) = some (c :: b, a) := by
  intro a
  induction a with
  | nil =>
    intro b _
    simp [takeUntil]
  | cons x xs ih =>
    intro b hmem
    have hx : ¬x = c := fun h => hmem (by rw [h]; exact List.mem_cons_self _ _)
    have hxs : c ∉ xs := fun h => hmem (List.mem_cons_of_mem _ h)
    simp only [List.cons_append, takeUntil, if_neg hx, List.append_eq]
    rw [ih b hxs]

lemma dropWhile_append_all (p : Char → Bool) :
    ∀ (a b : List Char), (∀ x ∈ a, p x = true) →
      (a ++ b).dropWhile p = b.dropWhile p := by
  intro a
  induction a with
  | nil => intro b _; simp
  | cons x xs ih =>
    intro b h
    have hx : p x = true := h x (List.mem_cons_self _ _)
    simp only [List.cons_append, List.dropWhile_cons, hx, if_pos]
    exact ih b (fun y hy => h y (List.mem_cons_of_mem _ hy))

lemma dropWhile_append_stop (p : Char → Bool) (c : Char) (hc : p c = false) :
    ∀ (a b : List Char), (a ++ c :: b).dropWhile p = a.dropWhile p ++ c :: b := by
  intro a
  induction a with
  | nil => intro b; simp [List.dropWhile_cons, hc]
  | cons x xs ih =>
    intro b
    cases hx : p x with
    | true => simp [List.dropWhile_cons, hx, ih b]
    | false => simp [List.dropWhile_cons, hx]

lemma mem_of_mem_dropWhile (p : Char → Bool) (x : Char) :
    ∀ l : List Char, x ∈ l.dropWhile p → x ∈ l := by
  intro l
  induction l with
  | nil => intro h; simpa using h
  | cons a rest ih =>
    intro h
    cases ha : p a with
    | true =>
      rw [List.dropWhile_cons, if_pos (by rw [ha])] at h
      exact List.mem_cons_of_mem _ (ih h)
    | false =>
      rw [List.dropWhile_cons, if_neg (by rw [ha]; simp)] at h
      exact h

lemma parse_render (l : RawLsLine) (rest : List Char) (h : l.WF) :
    ∃ sp pr, parse_lsscsi_line (l.render ++ rest) =
      some (rest, ⟨l.bracketId, sp, l.tok, pr, l.path⟩) := by
  obtain ⟨hb, hbn, hw1, htne, htok, hw2, hpre, hpren, hph, hpn⟩ := h
  obtain ⟨p0, hp⟩ : ∃ t, l.path = '/' :: t := by
    cases hpath : l.path with
    | nil => rw [hpath] at hph; simp at hph
    | cons a t =>
      rw [hpath] at hph
      simp only [List.head?_cons, Option.some.injEq] at hph
      exact ⟨t, by rw [hph]⟩
  have hsp : ' ' ∉ l.tok := by
    intro hmem
    have := htok ' ' hmem
    simp [isMultispace] at this
  have hw1m : ∀ c ∈ l.ws1, isMultispace c = true := by
    intro c hc
    rcases hw1 c hc with h1 | h1 <;> simp [isMultispace, h1]
  have hw2m : ∀ c ∈ l.ws2, isMultispace c = true := by
    intro c hc
    rcases hw2 c hc with h1 | h1 <;> simp [isMultispace, h1]
  have hpre2 : '/' ∉ l.pre.dropWhile isMultispace :=
    fun hmem => hpre (mem_of_mem_dropWhile _ _ _ hmem)
  have hnp : '\n' ∉ ('/' :: p0) := by
    rw [← hp]
    exact hpn
  have hrender : l.render ++ rest =
      '[' :: (l.bracketId ++ ']' ::
        (l.ws1 ++ (l.tok ++ ' ' ::
          (l.ws2 ++ (l.pre ++ (l.path ++ '\n' :: rest)))))) := by
    simp [RawLsLine.render]
  have hdw1 : (l.ws1 ++ (l.tok ++ ' ' ::
      (l.ws2 ++ (l.pre ++ (l.path ++ '\n' :: rest))))).dropWhile isMultispace =
      l.tok ++ ' ' :: (l.ws2 ++ (l.pre ++ (l.path ++ '\n' :: rest))) := by
    rw [dropWhile_append_all _ _ _ hw1m]
    cases htk : l.tok with
    | nil => exact absurd htk htne
    | cons t0 ts =>
      have ht0 : isMultispace t0 = false := htok t0 (by rw [htk]; exact List.mem_cons_self _ _)
      simp [List.dropWhile_cons, ht0]
  have hdw2 : (' ' :: (l.ws2 ++ (l.pre ++ (l.path ++ '\n' :: rest)))).dropWhile
      isMultispace =
      l.pre.dropWhile isMultispace ++ '/' :: (p0 ++ '\n' :: rest) := by
    rw [List.dropWhile_cons, if_pos (by simp [isMultispace]),
      dropWhile_append_all _ _ _ hw2m, hp]
    have : l.pre ++ '/' :: p0 ++ '\n' :: rest = l.pre ++ '/' :: (p0 ++ '\n' :: rest) := by
      simp
    rw [show l.pre ++ ('/' :: p0 ++ '\n' :: rest) = l.pre ++ '/' :: (p0 ++ '\n' :: rest)
      from by simp]
    exact dropWhile_append_stop isMultispace '/' (by simp [isMultispace]) l.pre
      (p0 ++ '\n' :: rest)
  have h2 := takeUntil_split ']' l.bracketId
    (l.ws1 ++ (l.tok ++ ' ' :: (l.ws2 ++ (l.pre ++ (l.path ++ '\n' :: rest))))) hb
  have h5 := takeUntil_split ' ' l.tok
    (l.ws2 ++ (l.pre ++ (l.path ++ '\n' :: rest))) hsp
  have h7 := takeUntil_split '/' (l.pre.dropWhile isMultispace)
    (p0 ++ '\n' :: rest) hpre2
  have h8 : takeUntil '\n' ('/' :: (p0 ++ '\n' :: rest)) =
      some ('\n' :: rest, l.path) := by
    rw [hp]
    exact takeUntil_split '\n' ('/' :: p0) rest hnp
  have hmain : parse_lsscsi_line (l.render ++ rest) =
      some (rest, ⟨l.bracketId,
        (l.ws1 ++ (l.tok ++ ' ' ::
          (l.ws2 ++ (l.pre ++ (l.path ++ '\n' :: rest))))).takeWhile isMultispace,
        l.tok, l.pre.dropWhile isMultispace, l.path⟩) := by
    rw [hrender]
    simp only [parse_lsscsi_line, charTag_self, h2, multispace0, hdw1, h5, hdw2, h7, h8]
  exact ⟨_, _, hmain⟩

lemma drivesOfLines_cons (c : LsLine) (caps : List LsLine) :
    drivesOfLines (c :: caps) =
      (if c.typeToken = "cd/dvd".toList then
        [⟨c.devPath.dropLast, false, DriveStatus.Setup⟩] else []) ++
      drivesOfLines caps := by
  rw [drivesOfLines, drivesOfLines, List.filterMap_cons]
  by_cases h : c.typeToken = "cd/dvd".toList
  · rw [if_pos h, if_pos h]
    rfl
  · rw [if_neg h, if_neg h]
    rfl

lemma many0_render :
    ∀ (lines : List RawLsLine) (fuel : Nat), (∀ l ∈ lines, l.WF) →
      ((lines.map RawLsLine.render).flatten).length < fuel →
      ∃ caps : List LsLine,
        many0F parse_lsscsi_line fuel ((lines.map RawLsLine.render).flatten) =
          some ([], caps) ∧
        drivesOfLines caps =
          (lines.filter (fun l => decide (l.tok = "cd/dvd".toList))).map
            (fun l => ⟨l.path.dropLast, false, DriveStatus.Setup⟩) := by
  intro lines
  induction lines with
  | nil =>
    intro fuel _ hfuel
    cases fuel with
    | zero => omega
    | succ f =>
      refine ⟨[], ?_, rfl⟩
      simp only [List.map_nil, List.flatten_nil]
      simp [many0F, parse_lsscsi_line, charTag]
  | cons l ls ih =>
    intro fuel hwf hfuel
    have hwl : l.WF := hwf l (List.mem_cons_self _ _)
    have hwls : ∀ x ∈ ls, x.WF := fun x hx => hwf x (List.mem_cons_of_mem _ hx)
    have hflat : ((l :: ls).map RawLsLine.render).flatten =
        l.render ++ ((ls.map RawLsLine.render).flatten) := by
      simp
    have hrlen : 0 < l.render.length := by
      simp [RawLsLine.render]
    cases fuel with
    | zero => omega
    | succ f =>
      obtain ⟨sp, pr, hline⟩ := parse_render l ((ls.map RawLsLine.render).flatten) hwl
      have hlt : ((ls.map RawLsLine.render).flatten).length <
          (l.render ++ (ls.map RawLsLine.render).flatten).length := by
        rw [List.length_append]
        omega
      have hfl : ((ls.map RawLsLine.render).flatten).length < f := by
        rw [hflat, List.length_append] at hfuel
        omega
      obtain ⟨caps, hm, hd⟩ := ih f hwls hfl
      refine ⟨⟨l.bracketId, sp, l.tok, pr, l.path⟩ :: caps, ?_, ?_⟩
      · rw [hflat]
        simp only [many0F, hline, if_pos hlt, hm]
      · rw [drivesOfLines_cons, hd]
        by_cases htk : l.tok = "cd/dvd".toList
        · rw [if_pos (by simpa using htk), List.filter_cons, if_pos (by simpa using htk)]
          simp
        · rw [if_neg (by simpa using htk), List.filter_cons, if_neg (by simpa using htk)]
          simp

/-- C5: on input consisting only of well-formed device-listing lines, the
inventory parser consumes the whole text and yields one `DiskDrive` per line
whose type token is `cd/dvd`, in the original line order, each `file` being
the line's captured path minus its last character (so exactly `countP`-many
drives); and on malformed input, where no line matches the
bracket/type/path shape (the line parser fails immediately), it yields an
empty sequence rather than an error. -/
theorem inventory_parser_cd_dvd_filter :
    (∀ lines : List RawLsLine, (∀ l ∈ lines, l.WF) →
      ∃ drives : List DiskDrive,
        parse_disk_drive_list ((lines.map RawLsLine.render).flatten) =
          some ([], drives) ∧
        drives = (lines.filter (fun l => decide (l.tok = "cd/dvd".toList))).map
          (fun l => ⟨l.path.dropLast, false, DriveStatus.Setup⟩) ∧
        drives.length = lines.countP (fun l => decide (l.tok = "cd/dvd".toList))) ∧
    (∀ input : List Char, parse_lsscsi_line input = none →
      parse_disk_drive_list input = some (input, [])) := by
  constructor
  · intro lines hwf
    obtain ⟨caps, hm, hd⟩ := many0_render lines
      (((lines.map RawLsLine.render).flatten).length + 1) hwf (by omega)
    refine ⟨drivesOfLines caps, ?_, hd, ?_⟩
    · rw [parse_disk_drive_list, hm]
    · rw [hd, List.length_map, List.countP_eq_length_filter]
  · intro input hfail
    rw [parse_disk_drive_list]
    cases hlen : input.length with
    | zero => simp only [many0F, hfail]; rfl
    | succ n => simp only [many0F, hfail]; rfl

/-- Witness for C5: two well-formed lines, one `cd/dvd` and one `disk`,
yielding exactly the one cd/dvd drive with the trailing character stripped;
plus a malformed input yielding the empty sequence. -/
theorem inventory_parser_cd_dvd_filter_witness :
    (∀ l ∈ [(⟨"0:0:0:0".toList, "    ".toList, "cd/dvd".toList, " ".toList,
        "SONY     DVD RW  ".toList, "/dev/sr0x".toList⟩ : RawLsLine),
      ⟨"1:0:0:0".toList, "    ".toList, "disk".toList, " ".toList,
        "ATA      HDD     ".toList, "/dev/sda1".toList⟩], l.WF) ∧
    (∃ drives : List DiskDrive,
      parse_disk_drive_list
          (([(⟨"0:0:0:0".toList, "    ".toList, "cd/dvd".toList, " ".toList,
              "SONY     DVD RW  ".toList, "/dev/sr0x".toList⟩ : RawLsLine),
            ⟨"1:0:0:0".toList, "    ".toList, "disk".toList, " ".toList,
              "ATA      HDD     ".toList, "/dev/sda1".toList⟩].map
            RawLsLine.render).flatten) =
        some ([], drives) ∧
      drives = ([(⟨"0:0:0:0".toList, "    ".toList, "cd/dvd".toList, " ".toList,
          "SONY     DVD RW  ".toList, "/dev/sr0x".toList⟩ : RawLsLine),
        ⟨"1:0:0:0".toList, "    ".toList, "disk".toList, " ".toList,
          "ATA      HDD     ".toList, "/dev/sda1".toList⟩].filter
          (fun l => decide (l.tok = "cd/dvd".toList))).map
        (fun l => ⟨l.path.dropLast, false, DriveStatus.Setup⟩) ∧
      drives.length = 1) ∧
    parse_disk_drive_list ("no drives here".toList) =
      some ("no drives here".toList, []) := by
  refine ⟨by decide, ?_, ?_⟩
  · obtain ⟨drives, h1, h2, h3⟩ := inventory_parser_cd_dvd_filter.1
      [⟨"0:0:0:0".toList, "    ".toList, "cd/dvd".toList, " ".toList,
          "SONY     DVD RW  ".toList, "/dev/sr0x".toList⟩,
        ⟨"1:0:0:0".toList, "    ".toList, "disk".toList, " ".toList,
          "ATA      HDD     ".toList, "/dev/sda1".toList⟩] (by decide)
    exact ⟨drives, h1, h2, by rw [h3]; decide⟩
  · exact inventory_parser_cd_dvd_filter.2 ("no drives here".toList) (by decide)
